import Mathlib

/-!
Verification of the detection-evaluation core of tf2_YOLO
(src/utils/measurement.py): the score-matrix builder
(create_score_mat) and the ranked precision-recall pipeline
(class PR_func: constructor, call, smoothing, get_map).

The embedding starts from decoded boxes: the external collaborators
decode / nms / soft_nms (src/utils/tools.py, not part of the verified
core) turn tensors into per-image box lists, and the code under
verification consumes those lists.  Machine floats are modelled as
exact rationals; numpy true_divide is modelled by NpFloat, which keeps
the NaN / infinity outcomes of zero denominators explicit.
-/

namespace TF2YOLO

/-- A decoded box: center x, center y, width, height, confidence
(the first five columns of an xywhcp row). -/
structure Box where
  x : ℚ
  y : ℚ
  w : ℚ
  h : ℚ
  c : ℚ
deriving DecidableEq, Repr

/-- Modelled from the spec: the collaborator cal_iou
(src/utils/tools.py is absent from the verified sources); the spec
glossary defines IoU as the intersection-over-union overlap ratio of
two boxes, with boxes given by center coordinates and sizes. -/
def cal_iou (a b : Box) : ℚ :=
  let iw := max 0 (min (a.x + a.w / 2) (b.x + b.w / 2) -
                   max (a.x - a.w / 2) (b.x - b.w / 2))
  let ih := max 0 (min (a.y + a.h / 2) (b.y + b.h / 2) -
                   max (a.y - a.h / 2) (b.y - b.h / 2))
  let inter := iw * ih
  inter / (a.w * a.h + b.w * b.h - inter)

/-- np.max over a one-dimensional array (never called on empty data in
the source; 0 is a junk value for the empty list). -/
def maxVal : List ℚ → ℚ
  | [] => 0
  | [v] => v
  | v :: w :: t => max v (maxVal (w :: t))

/-- np.argmax over a one-dimensional array: index of the first
occurrence of the maximum. -/
def argmaxIdx : List ℚ → ℕ
  | [] => 0
  | [_] => 0
  | v :: w :: t => if v < maxVal (w :: t) then argmaxIdx (w :: t) + 1 else 0

theorem maxVal_cons (v : ℚ) (l : List ℚ) (h : l ≠ []) :
    maxVal (v :: l) = max v (maxVal l) := by
  cases l with
  | nil => exact absurd rfl h
  | cons w t => rfl

theorem argmaxIdx_lt_length (l : List ℚ) (h : l ≠ []) :
    argmaxIdx l < l.length := by
  induction l with
  | nil => exact absurd rfl h
  | cons v t ih =>
    cases t with
    | nil => simp [argmaxIdx]
    | cons w u =>
      by_cases hc : v < maxVal (w :: u)
      · have h1 := ih (by simp)
        simp only [argmaxIdx, if_pos hc, List.length_cons] at h1 ⊢
        omega
      · simp [argmaxIdx, if_neg hc]

/-- One row of the per-class detection accumulator built by
PR_func.__init__: confidence, matched ground-truth id
(argmax IoU over ground truths plus the running per-class offset),
and the IoU-pass mask bit. -/
structure Det where
  conf : ℚ
  gtId : ℕ
  iouPass : Bool
deriving DecidableEq, Repr

/-- Ascending insertion by confidence; models np.argsort over the
confidence column (tie order is arbitrary in the source: np.argsort
uses an unstable quicksort). -/
def insertAsc (d : Det) : List Det → List Det
  | [] => [d]
  | e :: t => if d.conf ≤ e.conf then d :: e :: t else e :: insertAsc d t

/-- Sort detections by decreasing confidence:
detection[np.argsort(detection[:, 0])[::-1]]. -/
def sortDesc (l : List Det) : List Det :=
  (l.foldr insertAsc []).reverse

theorem length_insertAsc (d : Det) (l : List Det) :
    (insertAsc d l).length = l.length + 1 := by
  induction l with
  | nil => rfl
  | cons e t ih =>
    by_cases hc : d.conf ≤ e.conf
    · simp [insertAsc, hc]
    · simp [insertAsc, hc, ih]

theorem length_sortDesc (l : List Det) :
    (sortDesc l).length = l.length := by
  unfold sortDesc
  rw [List.length_reverse]
  induction l with
  | nil => rfl
  | cons e t ih => simp [length_insertAsc, ih]

/-- num_TP for a prefix of the ranked detection list: the number of
distinct matched ground-truth ids among the IoU-passing rows
(len(set(det[:, 1][obj_mask]))). -/
def tpCount (l : List Det) : ℕ :=
  ((l.filter (fun d => d.iouPass)).map (fun d => d.gtId)).dedup.length

/-- Cumulative precision at rank i (0-based) of the sorted detection
list: num_TP / (num_TP + num_FP) with num_FP = num_dets - num_TPP. -/
def precAt (sorted : List Det) (i : ℕ) : ℚ :=
  let det := sorted.take (i + 1)
  let tp := tpCount det
  let fp := det.length - (det.filter (fun d => d.iouPass)).length
  (tp : ℚ) / ((tp : ℚ) + (fp : ℚ))

/-- Cumulative recall at rank i: num_TP / num_gts. -/
def recAt (sorted : List Det) (numGts : ℕ) (i : ℕ) : ℚ :=
  (tpCount (sorted.take (i + 1)) : ℚ) / (numGts : ℚ)

/-- All cumulative precisions of one class, in rank order. -/
def precList (sorted : List Det) : List ℚ :=
  (List.range sorted.length).map (precAt sorted)

/-- All cumulative recalls of one class, in rank order. -/
def recList (sorted : List Det) (numGts : ℕ) : List ℚ :=
  (List.range sorted.length).map (recAt sorted numGts)

/-- The value of the loop variable num_TP after the per-detection loop
of one class: the loop's own final value when the class has
detections, otherwise whatever earlier classes left in the Python
local (none models num_TP never having been assigned, i.e. a
NameError at the sentinel append). -/
def lastTP (sorted : List Det) (carry : Option ℕ) : Option ℕ :=
  if sorted.isEmpty then carry else some (tpCount sorted)

/-- One class's (precisions, recalls) pair as built by
PR_func.__init__: cumulative precision/recall per rank followed by the
sentinel (precision 0, recall num_TP/num_gts with num_TP the leftover
loop variable). -/
def classCurve (dets : List Det) (numGts : ℕ) (carry : Option ℕ) :
    Option (List ℚ × List ℚ) :=
  let sorted := sortDesc dets
  match lastTP sorted carry with
  | none => none
  | some t => some (precList sorted ++ [0],
                    recList sorted numGts ++ [(t : ℚ) / (numGts : ℚ)])

/-- The whole curve-building loop of PR_func.__init__, threading the
Python local num_TP across classes; none models construction aborting
with a NameError. -/
def buildAllCurves : List (List Det × ℕ) → Option ℕ →
    Option (List (List ℚ × List ℚ))
  | [], _ => some []
  | (dets, g) :: rest, carry =>
    match classCurve dets g carry with
    | none => none
    | some cu =>
      match buildAllCurves rest (lastTP (sortDesc dets) carry) with
      | none => none
      | some cs => some (cu :: cs)

theorem dedup_length_append_le {α : Type} [DecidableEq α] (a b : List α) :
    a.dedup.length ≤ (a ++ b).dedup.length := by
  rw [← List.card_toFinset, ← List.card_toFinset]
  apply Finset.card_le_card
  rw [List.toFinset_append]
  exact Finset.subset_union_left

theorem tpCount_take_mono (l : List Det) {i j : ℕ} (hij : i ≤ j) :
    tpCount (l.take i) ≤ tpCount (l.take j) := by
  have hsplit : l.take j = l.take i ++ (l.drop i).take (j - i) := by
    have : i + (j - i) = j := by omega
    rw [← this, List.take_add, Nat.add_sub_cancel_left]
  rw [hsplit]
  unfold tpCount
  rw [List.filter_append, List.map_append]
  exact dedup_length_append_le _ _

theorem recAt_mono (sorted : List Det) {g : ℕ} (hg : 0 < g) {i j : ℕ}
    (hij : i ≤ j) : recAt sorted g i ≤ recAt sorted g j := by
  unfold recAt
  have hgq : (0 : ℚ) < (g : ℚ) := by exact_mod_cast hg
  rw [div_le_div_iff_of_pos_right hgq]
  exact_mod_cast tpCount_take_mono sorted (by omega)

theorem recList_chain (sorted : List Det) {g : ℕ} (hg : 0 < g) :
    (recList sorted g).Chain' (fun a b => a ≤ b) := by
  unfold recList
  rw [List.chain'_map]
  cases hn : sorted.length with
  | zero => simp
  | succ m =>
    rw [List.chain'_range_succ]
    intro i _
    exact recAt_mono sorted hg (Nat.le_succ i)

theorem sortDesc_ne_nil {dets : List Det} (hne : dets ≠ []) :
    sortDesc dets ≠ [] := by
  intro hempty
  apply hne
  have hlen := length_sortDesc dets
  rw [hempty] at hlen
  exact List.length_eq_zero.mp hlen.symm

theorem recList_getLast (sorted : List Det) (g : ℕ) (h : sorted ≠ []) :
    (recList sorted g).getLast? =
      some ((tpCount sorted : ℚ) / (g : ℚ)) := by
  obtain ⟨m, hm⟩ : ∃ m, sorted.length = m + 1 := by
    have := List.length_pos.mpr h
    exact ⟨sorted.length - 1, by omega⟩
  unfold recList
  rw [hm, List.range_succ, List.map_append]
  simp only [List.map_cons, List.map_nil, List.getLast?_concat]
  unfold recAt
  rw [← hm, List.take_length]

/-- C3: for every class with at least one accumulated detection and a
positive ground-truth count, the recall sequence built by
PR_func.__init__ (sentinel included) is non-decreasing in rank order,
the sentinel precision is 0, and the sentinel recall equals the last
real recall value. -/
theorem pr_recall_monotone_sentinel (dets : List Det) (g : ℕ)
    (carry : Option ℕ) (hne : dets ≠ []) (hg : 0 < g) :
    ∃ ps rs, classCurve dets g carry = some (ps, rs) ∧
      rs.Chain' (fun a b => a ≤ b) ∧
      ps.getLast? = some 0 ∧
      rs.getLast? = (recList (sortDesc dets) g).getLast? := by
  have hs : sortDesc dets ≠ [] := sortDesc_ne_nil hne
  have hlt : lastTP (sortDesc dets) carry =
      some (tpCount (sortDesc dets)) := by
    unfold lastTP
    rw [if_neg (by simpa [List.isEmpty_iff] using hs)]
  refine ⟨precList (sortDesc dets) ++ [0],
          recList (sortDesc dets) g ++
            [(tpCount (sortDesc dets) : ℚ) / (g : ℚ)], ?_, ?_, ?_, ?_⟩
  · simp only [classCurve, hlt]
  · rw [List.chain'_append]
    refine ⟨recList_chain _ hg, List.chain'_singleton _, ?_⟩
    intro x hx y hy
    rw [recList_getLast _ _ hs] at hx
    simp only [List.head?_cons, Option.mem_def, Option.some.injEq] at hx hy
    subst hx
    subst hy
    exact le_refl _
  · exact List.getLast?_concat _
  · rw [List.getLast?_concat, recList_getLast _ _ hs]

/-- PR_func.__call__ on one class's stored pair of arrays:
pc_idx = (recalls > recall).sum(); zero yields precision 0, otherwise
the result is precisions[-pc_idx:].max(). -/
def prCall (precisions recalls : List ℚ) (r : ℚ) : ℚ :=
  if (recalls.filter (fun x => decide (r < x))).length = 0 then 0
  else maxVal (precisions.drop
    (precisions.length - (recalls.filter (fun x => decide (r < x))).length))

/-- Modelled from the spec: the forward-looking precision envelope.
At the first index whose recall strictly exceeds r, report the maximum
precision over the whole suffix of the precision sequence from that
index to the end; report 0 when no recall exceeds r. -/
def specEnvelope (r : ℚ) : List ℚ → List ℚ → ℚ
  | p :: pt, q :: qt =>
    if r < q then maxVal (p :: pt) else specEnvelope r pt qt
  | _, _ => 0

theorem prCall_eq_specEnvelope (r : ℚ) (ps rs : List ℚ)
    (hlen : ps.length = rs.length)
    (hsort : rs.Pairwise (fun a b => a ≤ b)) :
    prCall ps rs r = specEnvelope r ps rs := by
  induction rs generalizing ps with
  | nil =>
    cases ps with
    | nil => simp [prCall, specEnvelope]
    | cons p pt => simp at hlen
  | cons q qt ih =>
    cases ps with
    | nil => simp at hlen
    | cons p pt =>
      have hlen' : pt.length = qt.length := by simpa using hlen
      rw [List.pairwise_cons] at hsort
      by_cases hr : r < q
      · have hfilt : (q :: qt).filter (fun x => decide (r < x)) = q :: qt := by
          rw [List.filter_eq_self]
          intro a ha
          simp only [decide_eq_true_eq]
          rcases List.mem_cons.mp ha with hqa | hqa
          · exact hqa ▸ hr
          · exact lt_of_lt_of_le hr (hsort.1 a hqa)
        unfold prCall
        rw [hfilt]
        rw [if_neg (by simp)]
        have hzero : (p :: pt).length - (q :: qt).length = 0 := by
          simp only [List.length_cons]
          omega
        rw [hzero, List.drop_zero]
        simp only [specEnvelope]
        rw [if_pos hr]
      · have hfilt : (q :: qt).filter (fun x => decide (r < x)) =
            qt.filter (fun x => decide (r < x)) := by
          simp [List.filter_cons, hr]
        have hk := List.length_filter_le (fun x => decide (r < x)) qt
        have hdrop : (p :: pt).length -
            (qt.filter (fun x => decide (r < x))).length =
            (pt.length - (qt.filter (fun x => decide (r < x))).length) + 1 := by
          simp only [List.length_cons]
          omega
        have hih := ih pt hlen' hsort.2
        unfold prCall at hih ⊢
        rw [hfilt, hdrop, List.drop_succ_cons]
        simp only [specEnvelope]
        rw [if_neg hr]
        exact hih

theorem classCurve_shape (dets : List Det) (g : ℕ) (carry : Option ℕ)
    (ps rs : List ℚ) (hg : 0 < g)
    (h : classCurve dets g carry = some (ps, rs)) :
    ps.length = rs.length ∧ rs.Chain' (fun a b => a ≤ b) := by
  by_cases hne : dets = []
  · subst hne
    cases carry with
    | none => simp [classCurve, sortDesc, lastTP] at h
    | some t =>
      simp only [classCurve, sortDesc, lastTP, List.foldr_nil,
        List.reverse_nil, List.isEmpty_nil, if_pos, precList, recList,
        List.length_nil, List.range_zero, List.map_nil, List.nil_append,
        Option.some.injEq, Prod.mk.injEq] at h
      obtain ⟨hps, hrs⟩ := h
      rw [← hps, ← hrs]
      exact ⟨rfl, List.chain'_singleton _⟩
  · have hs : sortDesc dets ≠ [] := sortDesc_ne_nil hne
    have hlt : lastTP (sortDesc dets) carry =
        some (tpCount (sortDesc dets)) := by
      unfold lastTP
      rw [if_neg (by simpa [List.isEmpty_iff] using hs)]
    simp only [classCurve, hlt, Option.some.injEq, Prod.mk.injEq] at h
    obtain ⟨hps, hrs⟩ := h
    constructor
    · rw [← hps, ← hrs]
      simp [precList, recList]
    · rw [← hrs, List.chain'_append]
      refine ⟨recList_chain _ hg, List.chain'_singleton _, ?_⟩
      intro x hx y hy
      rw [recList_getLast _ _ hs] at hx
      simp only [List.head?_cons, Option.mem_def, Option.some.injEq] at hx hy
      subst hx
      subst hy
      exact le_refl _

/-- C4: a call on a constructed PR_func instance computes exactly the
forward-looking precision envelope: 0 when no stored recall strictly
exceeds the target, else the maximum precision over the suffix
starting at the first index whose recall strictly exceeds it. -/
theorem pr_call_is_envelope (dets : List Det) (g : ℕ) (carry : Option ℕ)
    (ps rs : List ℚ) (r : ℚ) (hg : 0 < g)
    (h : classCurve dets g carry = some (ps, rs)) :
    prCall ps rs r = specEnvelope r ps rs := by
  obtain ⟨hlen, hchain⟩ := classCurve_shape dets g carry ps rs hg h
  exact prCall_eq_specEnvelope r ps rs hlen
    (List.chain'_iff_pairwise.mp hchain)

/-- Python index adjustment: a negative index counts from the end of
the list. -/
def pyAdjust (len : ℕ) (i : ℤ) : ℤ :=
  if i < 0 then i + len else i

/-- Python list indexing: none models an IndexError. -/
def pyIndex {α : Type} (l : List α) (i : ℤ) : Option α :=
  if 0 ≤ pyAdjust l.length i then l[(pyAdjust l.length i).toNat]? else none

/-- PR_func.__call__ with its class-index handling: an explicit
IndexError is raised for class_idx >= class_num, and the subsequent
list accesses self.precisions[class_idx] / self.recalls[class_idx]
follow Python indexing (the stored lists have class_num entries). -/
def callChecked (classNum : ℕ) (curves : List (List ℚ × List ℚ))
    (r : ℚ) (idx : ℤ) : Option ℚ :=
  if (classNum : ℤ) ≤ idx then none
  else
    match pyIndex curves idx with
    | none => none
    | some c => some (prCall c.1 c.2 r)

theorem pyIndex_isSome {α : Type} (l : List α) (i : ℤ)
    (h : -(l.length : ℤ) ≤ i) (h2 : i < l.length) : pyIndex l i ≠ none := by
  unfold pyIndex pyAdjust
  by_cases hneg : i < 0
  · rw [if_pos hneg, if_pos (by omega)]
    have hlt : (i + l.length).toNat < l.length := by omega
    simp [List.getElem?_eq_getElem hlt]
  · rw [if_neg hneg, if_pos (by omega)]
    have hlt : i.toNat < l.length := by omega
    simp [List.getElem?_eq_getElem hlt]

theorem pyIndex_none {α : Type} (l : List α) (i : ℤ)
    (h : i < -(l.length : ℤ)) : pyIndex l i = none := by
  unfold pyIndex pyAdjust
  have hneg : i < 0 := by omega
  rw [if_pos hneg, if_neg (by omega)]

/-- C6 counterexample: class_idx = -1 lies outside [0, class_num), yet
the call raises no index error: Python negative indexing silently
wraps to the last class. -/
theorem call_index_check_counterexample :
    callChecked 1 [([0], [0])] 0 (-1) = some 0 ∧ ¬(0 ≤ (-1 : ℤ)) := by
  constructor
  · rfl
  · decide

/-- C6 amended: a call raises an index error exactly when
class_idx >= class_num or class_idx < -class_num; negative indices in
[-class_num, -1] wrap around Python-style and succeed. -/
theorem call_index_check_amended (classNum : ℕ)
    (curves : List (List ℚ × List ℚ)) (r : ℚ) (idx : ℤ)
    (hlen : curves.length = classNum) :
    callChecked classNum curves r idx = none ↔
      ((classNum : ℤ) ≤ idx ∨ idx < -(classNum : ℤ)) := by
  subst hlen
  unfold callChecked
  by_cases h1 : (curves.length : ℤ) ≤ idx
  · simp [h1]
  · rw [if_neg h1]
    push_neg at h1
    by_cases h2 : idx < -(curves.length : ℤ)
    · rw [pyIndex_none curves idx h2]
      simp [h2]
    · push_neg at h2
      have hne := pyIndex_isSome curves idx h2 h1
      rcases hp : pyIndex curves idx with _ | pr
      · exact absurd hp hne
      · simp only [reduceCtorEq, false_iff]
        omega

/-- The per-image cap of PR_func.__init__: when more than max_per_img
detections survive for one image and class, sort by descending
confidence and keep the tail slice detection[-max_per_img:] (for a cap
of 0 the Python slice [-0:] keeps the whole sorted array). -/
def capDets (maxPerImg : Option ℕ) (detection : List Det) : List Det :=
  match maxPerImg with
  | none => detection
  | some m =>
    if m < detection.length then
      if m = 0 then sortDesc detection
      else (sortDesc detection).drop ((sortDesc detection).length - m)
    else detection

/-- C1: with max_per_img = 1 and two qualifying detections of differing
confidence in one image, the retained detection is the lower-confidence
one: the code sorts by descending confidence and then keeps the slice
detection[-max_per_img:], i.e. the tail of the descending array. -/
theorem cap_keeps_lowest_confidence :
    capDets (some 1)
      [{conf := 9/10, gtId := 0, iouPass := true},
       {conf := 3/10, gtId := 0, iouPass := true}] =
      [{conf := 3/10, gtId := 0, iouPass := true}] := by
  norm_num [capDets, sortDesc, insertAsc]

/-- C5: a class with zero accumulated detections breaks the sentinel
append.  With a single class and no detections, num_TP is read before
any assignment (a NameError, modelled as none), so construction fails;
with an earlier class that had detections, the zero-detection class's
sentinel recall silently reuses the earlier class's leftover num_TP
(here recall 1 for a class that detected nothing). -/
theorem zero_detection_class_fails :
    buildAllCurves [([], 1)] none = none ∧
    buildAllCurves
      [([{conf := 9/10, gtId := 0, iouPass := true}], 1), ([], 1)] none =
      some [([1, 0], [1, 1]), ([0], [1])] := by
  constructor
  · rfl
  · norm_num [buildAllCurves, classCurve, lastTP, sortDesc, insertAsc,
      precList, recList, precAt, recAt, tpCount, List.range_succ]

theorem mem_insertAsc {d e : Det} {l : List Det}
    (h : e ∈ insertAsc d l) : e = d ∨ e ∈ l := by
  induction l with
  | nil =>
    simp only [insertAsc, List.mem_singleton] at h
    exact Or.inl h
  | cons f t ih =>
    unfold insertAsc at h
    split at h
    · rcases List.mem_cons.mp h with h1 | h1
      · exact Or.inl h1
      · exact Or.inr h1
    · rcases List.mem_cons.mp h with h1 | h1
      · exact Or.inr (h1 ▸ List.mem_cons_self f t)
      · rcases ih h1 with h2 | h2
        · exact Or.inl h2
        · exact Or.inr (List.mem_cons_of_mem f h2)

theorem mem_sortDesc {e : Det} {l : List Det} (h : e ∈ sortDesc l) :
    e ∈ l := by
  unfold sortDesc at h
  rw [List.mem_reverse] at h
  induction l with
  | nil => simp at h
  | cons f t ih =>
    rw [List.foldr_cons] at h
    rcases mem_insertAsc h with h1 | h1
    · exact h1 ▸ List.mem_cons_self f t
    · exact List.mem_cons_of_mem f (ih h1)

theorem mem_capDets {mpi : Option ℕ} {e : Det} {l : List Det}
    (h : e ∈ capDets mpi l) : e ∈ l := by
  rcases mpi with _ | m
  · exact h
  · simp only [capDets] at h
    split at h
    · split at h
      · exact mem_sortDesc h
      · exact mem_sortDesc (List.mem_of_mem_drop h)
    · exact h

/-- One image's contribution to a class's detection accumulator, before
the cap: per predicted box of the class, its confidence, the row index
of the IoU argmax over the class's ground-truth boxes plus the running
offset num_gts, and the mask bit best_iou >= iou_threshold.  The IoU
engine cal_iou is an external collaborator, passed as a parameter. -/
def imgDetections (iou : Box → Box → ℚ) (ts ps : List Box) (thr : ℚ)
    (offset : ℕ) : List Det :=
  ps.map (fun p =>
    { conf := p.c,
      gtId := argmaxIdx (ts.map (fun t => iou t p)) + offset,
      iouPass := decide (thr ≤ maxVal (ts.map (fun t => iou t p))) })

/-- The guarded per-image body: detections are recorded only when both
the ground-truth and prediction partitions of the class are
non-empty. -/
def imgContribAt (iou : Box → Box → ℚ) (thr : ℚ) (mpi : Option ℕ)
    (img : List Box × List Box) (off : ℕ) : List Det :=
  if 0 < img.1.length ∧ 0 < img.2.length then
    capDets mpi (imgDetections iou img.1 img.2 thr off)
  else []

/-- One step of the dataset sweep of PR_func.__init__ for one class:
read the running ground-truth count, use it as the id offset, extend
it by this image's ground-truth count, and append this image's capped
detections. -/
def prStep (iou : Box → Box → ℚ) (thr : ℚ) (mpi : Option ℕ)
    (st : ℕ × List Det) (img : List Box × List Box) : ℕ × List Det :=
  if 0 < img.1.length ∧ 0 < img.2.length then
    (st.1 + img.1.length,
     st.2 ++ capDets mpi (imgDetections iou img.1 img.2 thr st.1))
  else (st.1 + img.1.length, st.2)

/-- The whole dataset sweep for one class: ground-truth total and
accumulated detection rows. -/
def prAccum (iou : Box → Box → ℚ) (thr : ℚ) (mpi : Option ℕ)
    (imgs : List (List Box × List Box)) : ℕ × List Det :=
  imgs.foldl (prStep iou thr mpi) (0, [])

/-- The image list entry read at position k (junk for k out of
range). -/
def imgAt (imgs : List (List Box × List Box)) (k : ℕ) :
    List Box × List Box :=
  imgs.getD k ([], [])

/-- The running ground-truth offset right before image k is
processed: the ground-truth counts of all earlier images. -/
def offsetAt (imgs : List (List Box × List Box)) (k : ℕ) : ℕ :=
  ((imgs.take k).map (fun im => im.1.length)).sum

/-- The detections image k contributes to the class accumulator. -/
def imgContribution (iou : Box → Box → ℚ) (thr : ℚ) (mpi : Option ℕ)
    (imgs : List (List Box × List Box)) (k : ℕ) : List Det :=
  imgContribAt iou thr mpi (imgAt imgs k) (offsetAt imgs k)

theorem prStep_eq (iou : Box → Box → ℚ) (thr : ℚ) (mpi : Option ℕ)
    (g : ℕ) (acc : List Det) (img : List Box × List Box) :
    prStep iou thr mpi (g, acc) img =
      (g + img.1.length, acc ++ imgContribAt iou thr mpi img g) := by
  unfold prStep imgContribAt
  split
  · rfl
  · simp

theorem offsetAt_cons_succ (im : List Box × List Box)
    (rest : List (List Box × List Box)) (k : ℕ) :
    offsetAt (im :: rest) (k + 1) = im.1.length + offsetAt rest k := by
  unfold offsetAt
  rw [List.take_succ_cons, List.map_cons, List.sum_cons]

theorem offsetAt_zero (imgs : List (List Box × List Box)) :
    offsetAt imgs 0 = 0 := rfl

theorem prAccum_go (iou : Box → Box → ℚ) (thr : ℚ) (mpi : Option ℕ)
    (imgs : List (List Box × List Box)) (g₀ : ℕ) (acc : List Det) :
    imgs.foldl (prStep iou thr mpi) (g₀, acc) =
      (g₀ + (imgs.map (fun im => im.1.length)).sum,
       acc ++ ((List.range imgs.length).map
         (fun k => imgContribAt iou thr mpi (imgAt imgs k)
           (g₀ + offsetAt imgs k))).flatten) := by
  induction imgs generalizing g₀ acc with
  | nil => simp [offsetAt]
  | cons im rest ih =>
    rw [List.foldl_cons, prStep_eq, ih]
    simp only [Prod.mk.injEq]
    constructor
    · simp only [List.map_cons, List.sum_cons]
      omega
    · rw [List.length_cons, List.range_succ_eq_map, List.map_cons,
        List.map_map, List.flatten_cons, List.append_assoc]
      -- head: image 0 at offset g₀; tail: image k+1 of im :: rest is
      -- image k of rest at offset g₀ + im.1.length + offsetAt rest k
      have hfun : ∀ k, imgContribAt iou thr mpi (imgAt rest k)
            (g₀ + im.1.length + offsetAt rest k) =
          ((fun k => imgContribAt iou thr mpi (imgAt (im :: rest) k)
            (g₀ + offsetAt (im :: rest) k)) ∘ Nat.succ) k := by
        intro k
        show imgContribAt iou thr mpi (imgAt rest k)
            (g₀ + im.1.length + offsetAt rest k) =
          imgContribAt iou thr mpi (imgAt (im :: rest) (k + 1))
            (g₀ + offsetAt (im :: rest) (k + 1))
        rw [offsetAt_cons_succ]
        have himg : imgAt (im :: rest) (k + 1) = imgAt rest k := rfl
        rw [himg]
        congr 1
        omega
      have hmap : List.map ((fun k => imgContribAt iou thr mpi
            (imgAt (im :: rest) k) (g₀ + offsetAt (im :: rest) k)) ∘
            Nat.succ) (List.range rest.length) =
          List.map (fun k => imgContribAt iou thr mpi (imgAt rest k)
            (g₀ + im.1.length + offsetAt rest k)) (List.range rest.length) :=
        List.map_congr_left (fun k _ => (hfun k).symm)
      rw [hmap]
      rfl

theorem offsetAt_succ (imgs : List (List Box × List Box)) (k : ℕ)
    (h : k < imgs.length) :
    offsetAt imgs (k + 1) = offsetAt imgs k + (imgAt imgs k).1.length := by
  induction imgs generalizing k with
  | nil => simp at h
  | cons im rest ih =>
    cases k with
    | zero =>
      rw [offsetAt_cons_succ, offsetAt_zero, offsetAt_zero]
      show im.1.length + 0 = 0 + im.1.length
      omega
    | succ j =>
      rw [offsetAt_cons_succ, offsetAt_cons_succ,
        ih j (by simpa using h)]
      show im.1.length + (offsetAt rest j + (imgAt rest j).1.length) =
        im.1.length + offsetAt rest j + (imgAt (im :: rest) (j + 1)).1.length
      have himg : imgAt (im :: rest) (j + 1) = imgAt rest j := rfl
      rw [himg]
      omega

theorem offsetAt_mono (imgs : List (List Box × List Box)) {a b : ℕ}
    (hab : a ≤ b) : offsetAt imgs a ≤ offsetAt imgs b := by
  unfold offsetAt
  have hsplit : imgs.take b = imgs.take a ++ (imgs.drop a).take (b - a) := by
    have : a + (b - a) = b := by omega
    rw [← this, List.take_add, Nat.add_sub_cancel_left]
  rw [hsplit, List.map_append, List.sum_append]
  exact Nat.le_add_right _ _

theorem gtId_mem_range (iou : Box → Box → ℚ) (thr : ℚ) (mpi : Option ℕ)
    (img : List Box × List Box) (off : ℕ) {d : Det}
    (hd : d ∈ imgContribAt iou thr mpi img off) :
    off ≤ d.gtId ∧ d.gtId < off + img.1.length := by
  unfold imgContribAt at hd
  split at hd
  · rename_i hguard
    have hd' : d ∈ imgDetections iou img.1 img.2 thr off := mem_capDets hd
    unfold imgDetections at hd'
    obtain ⟨p, hp, hfd⟩ := List.mem_map.mp hd'
    have hne : img.1.map (fun t => iou t p) ≠ [] := by
      intro hbad
      have hlen := congrArg List.length hbad
      rw [List.length_map, List.length_nil] at hlen
      omega
    have harg := argmaxIdx_lt_length _ hne
    rw [List.length_map] at harg
    rw [← hfd]
    dsimp only
    omega
  · simp at hd

/-- C7: the matched ground-truth ids recorded for detections of
distinct images never collide within a class: the dataset sweep
accumulates exactly the per-image contributions (each offset by the
running ground-truth count), and contributions of different images
carry disjoint id sets. -/
theorem gt_ids_disjoint_across_images (iou : Box → Box → ℚ) (thr : ℚ)
    (mpi : Option ℕ) (imgs : List (List Box × List Box)) (k₁ k₂ : ℕ)
    (h12 : k₁ < k₂) (h2 : k₂ < imgs.length) :
    (prAccum iou thr mpi imgs).2 =
      ((List.range imgs.length).map
        (imgContribution iou thr mpi imgs)).flatten ∧
    ∀ d₁ ∈ imgContribution iou thr mpi imgs k₁,
      ∀ d₂ ∈ imgContribution iou thr mpi imgs k₂, d₁.gtId ≠ d₂.gtId := by
  constructor
  · unfold prAccum
    rw [prAccum_go]
    simp only [Nat.zero_add, List.nil_append]
    rfl
  · intro d₁ hd₁ d₂ hd₂
    unfold imgContribution at hd₁ hd₂
    have b₁ := gtId_mem_range iou thr mpi (imgAt imgs k₁) _ hd₁
    have b₂ := gtId_mem_range iou thr mpi (imgAt imgs k₂) _ hd₂
    have hstep := offsetAt_succ imgs k₁ (by omega)
    have hmono := offsetAt_mono imgs (show k₁ + 1 ≤ k₂ by omega)
    omega

/-- One class's AP in get_map("area"): the loop over consecutive index
pairs accumulates delta*value with delta = recalls[i+1] - recalls[i]
and value = (precisions[i+1] - precisions[i])/2 + precisions[i]. -/
def get_map_area (precisions recalls : List ℚ) : ℚ :=
  ∑ i ∈ Finset.range (precisions.length - 1),
    (recalls.getD (i + 1) 0 - recalls.getD i 0) *
    ((precisions.getD (i + 1) 0 - precisions.getD i 0) / 2 +
      precisions.getD i 0)

/-- Modelled from the spec: trapezoidal integration of the PR sequence
over recall, each consecutive pair of points contributing delta-recall
times the average of the two precisions. -/
def specTrapArea (precisions recalls : List ℚ) : ℚ :=
  ∑ i ∈ Finset.range (precisions.length - 1),
    (recalls.getD (i + 1) 0 - recalls.getD i 0) *
    ((precisions.getD (i + 1) 0 + precisions.getD i 0) / 2)

/-- C8: get_map("area") computes exactly the trapezoidal integral of
the raw PR sequence, and on the two-point constant-height curve
(recall 0, precision 1), (recall 1, precision 1) it yields AP = 1. -/
theorem get_map_area_trapezoid :
    (∀ ps rs : List ℚ, get_map_area ps rs = specTrapArea ps rs) ∧
    get_map_area [1, 1] [0, 1] = 1 := by
  constructor
  · intro ps rs
    apply Finset.sum_congr rfl
    intro i _
    ring
  · norm_num [get_map_area, Finset.sum_range_succ]

/-- The in-place smoothing loop shared by get_map("smootharea") and
plot_pr_curve(smooth=True): scan from the last index toward index 0
carrying max_pc (initially 0); an entry above the carry is kept and
becomes the carry, otherwise it is overwritten by the carry. -/
def smoothStep (p : ℚ) (acc : ℚ × List ℚ) : ℚ × List ℚ :=
  if acc.1 < p then (p, p :: acc.2) else (acc.1, acc.1 :: acc.2)

/-- The smoothed (interpolated) precision sequence. -/
def smooth (l : List ℚ) : List ℚ :=
  (l.foldr smoothStep (0, [])).2

theorem smoothStep_eq (p : ℚ) (acc : ℚ × List ℚ) :
    smoothStep p acc = (max acc.1 p, max acc.1 p :: acc.2) := by
  unfold smoothStep
  split
  · rename_i h
    rw [max_eq_right (le_of_lt h)]
  · rename_i h
    push_neg at h
    rw [max_eq_left h]

theorem smooth_fst (l : List ℚ) :
    (l.foldr smoothStep (0, [])).1 = l.foldr max 0 := by
  induction l with
  | nil => rfl
  | cons p t ih =>
    simp only [List.foldr_cons, smoothStep_eq]
    rw [ih]
    exact max_comm _ _

theorem smooth_cons (p : ℚ) (t : List ℚ) :
    smooth (p :: t) = max p (t.foldr max 0) :: smooth t := by
  unfold smooth
  simp only [List.foldr_cons, smoothStep_eq]
  rw [smooth_fst, max_comm]

theorem smooth_getD (l : List ℚ) (i : ℕ) (hi : i < l.length) :
    (smooth l).getD i 0 = (l.drop i).foldr max 0 := by
  induction l generalizing i with
  | nil => simp at hi
  | cons p t ih =>
    rw [smooth_cons]
    cases i with
    | zero => simp
    | succ j =>
      simp only [List.getD_cons_succ, List.drop_succ_cons]
      exact ih j (by simpa using hi)

theorem foldr_max_le_bound (l : List ℚ) : ∀ x ∈ l, x ≤ l.foldr max 0 := by
  induction l with
  | nil => simp
  | cons p t ih =>
    intro x hx
    rw [List.foldr_cons]
    rcases List.mem_cons.mp hx with h | h
    · rw [h]
      exact le_max_left _ _
    · exact le_trans (ih x h) (le_max_right _ _)

theorem foldr_max_mem (l : List ℚ) (hne : l ≠ [])
    (hpos : ∀ x ∈ l, 0 ≤ x) : l.foldr max 0 ∈ l := by
  induction l with
  | nil => exact absurd rfl hne
  | cons p t ih =>
    rw [List.foldr_cons]
    cases t with
    | nil =>
      simp only [List.foldr_nil]
      rw [max_eq_left (hpos p (by simp))]
      simp
    | cons q u =>
      rcases le_or_lt ((q :: u).foldr max 0) p with h | h
      · rw [max_eq_left h]
        exact List.mem_cons_self _ _
      · rw [max_eq_right (le_of_lt h)]
        exact List.mem_cons_of_mem _
          (ih (by simp) (fun x hx => hpos x (List.mem_cons_of_mem _ hx)))

theorem foldr_max_drop_le_self (m : List ℚ) (k : ℕ) :
    (m.drop k).foldr max 0 ≤ m.foldr max 0 := by
  induction m generalizing k with
  | nil => simp
  | cons p t ih =>
    cases k with
    | zero => simp
    | succ j =>
      rw [List.drop_succ_cons, List.foldr_cons]
      exact le_trans (ih j) (le_max_right _ _)

theorem foldr_max_drop_le (l : List ℚ) (i j : ℕ) (hij : i ≤ j) :
    (l.drop j).foldr max 0 ≤ (l.drop i).foldr max 0 := by
  have hd : l.drop j = (l.drop i).drop (j - i) := by
    rw [List.drop_drop]
    congr 1
    omega
  rw [hd]
  exact foldr_max_drop_le_self (l.drop i) (j - i)

/-- C9: the smoothing pass replaces every entry by the maximum of the
original sequence from that index to the end (for the nonnegative
values it is applied to, the membership and upper-bound pair below),
and the smoothed sequence is non-increasing in rank order. -/
theorem smooth_suffix_max_antitone (l : List ℚ) (hpos : ∀ x ∈ l, 0 ≤ x)
    (i j : ℕ) (hij : i ≤ j) (hj : j < l.length) :
    ((smooth l).getD i 0 ∈ l.drop i ∧
      ∀ x ∈ l.drop i, x ≤ (smooth l).getD i 0) ∧
    (smooth l).getD j 0 ≤ (smooth l).getD i 0 := by
  have hi : i < l.length := lt_of_le_of_lt hij hj
  rw [smooth_getD l i hi, smooth_getD l j hj]
  refine ⟨⟨?_, ?_⟩, foldr_max_drop_le l i j hij⟩
  · apply foldr_max_mem
    · intro hbad
      have hlen := congrArg List.length hbad
      rw [List.length_drop, List.length_nil] at hlen
      omega
    · intro x hx
      exact hpos x (List.mem_of_mem_drop hx)
  · exact fun x hx => foldr_max_le_bound _ x hx

/-- numpy float results of np.true_divide on exact rational inputs:
a zero denominator produces NaN (0/0) or a signed infinity. -/
inductive NpFloat where
  | nan : NpFloat
  | inf : NpFloat
  | ninf : NpFloat
  | num (q : ℚ) : NpFloat
deriving DecidableEq, Repr

/-- np.true_divide on exact rationals. -/
def npDiv (a b : ℚ) : NpFloat :=
  if b = 0 then
    if a = 0 then NpFloat.nan
    else if 0 < a then NpFloat.inf else NpFloat.ninf
  else NpFloat.num (a / b)

/-- numpy comparison <=; every comparison against NaN is false. -/
def NpFloat.leB : NpFloat → NpFloat → Bool
  | NpFloat.nan, _ => false
  | _, NpFloat.nan => false
  | NpFloat.ninf, _ => true
  | _, NpFloat.inf => true
  | NpFloat.inf, _ => false
  | NpFloat.num _, NpFloat.ninf => false
  | NpFloat.num a, NpFloat.num b => decide (a ≤ b)

/-- A decoded row of create_score_mat input: box columns plus the
class-probability columns; the effective class is the argmax of the
probabilities. -/
structure CBox where
  box : Box
  probs : List ℚ
deriving DecidableEq, Repr

/-- The argmax class assignment of one decoded row. -/
def classOf (cb : CBox) : ℕ := argmaxIdx cb.probs

/-- The boolean-mask partition xywhc[class_assignment == class_i]. -/
def boxesOfClass (l : List CBox) (c : ℕ) : List Box :=
  (l.filter (fun cb => classOf cb == c)).map (fun cb => cb.box)

/-- num_TPP of one image and class: predictions whose best IoU over
the ground truths reaches the threshold (column maxima of the IoU
matrix). -/
def numTPP (iou : Box → Box → ℚ) (thr : ℚ) (ts ps : List Box) : ℕ :=
  (ps.filter (fun p => decide (thr ≤ maxVal (ts.map (fun t => iou t p))))).length

/-- num_TP of one image and class: ground truths whose best IoU over
the predictions reaches the threshold (row maxima of the IoU
matrix). -/
def numTP (iou : Box → Box → ℚ) (thr : ℚ) (ts ps : List Box) : ℕ :=
  (ts.filter (fun t => decide (thr ≤ maxVal (ps.map (fun p => iou t p))))).length

/-- The per-class accumulators of create_score_mat:
denom_array[c] = (denomPP, denomP), TP_array[c] = (tpSum, tpRec),
det_counts[c] = dets. -/
structure ScoreAcc where
  denomPP : ℚ
  denomP : ℚ
  tpSum : ℚ
  tpRec : ℚ
  dets : ℕ
deriving DecidableEq, Repr

/-- The per-class body of the create_score_mat image loop: always add
num_PP and num_P to the denominators and num_PP to det_counts; when
both partitions are non-empty add the true-positive counts, and in
precision_mode 1 shrink the precision denominator by
(num_TPP - num_TP) and use num_TP as the precision numerator. -/
def scoreStepTP (iou : Box → Box → ℚ) (thr : ℚ) (pMode : ℕ)
    (acc : ScoreAcc) (ts ps : List Box) : ScoreAcc :=
  if 0 < ts.length ∧ 0 < ps.length then
    if pMode = 1 then
      { denomPP := acc.denomPP + (ps.length : ℚ) -
          ((numTPP iou thr ts ps : ℚ) - (numTP iou thr ts ps : ℚ)),
        denomP := acc.denomP + (ts.length : ℚ),
        tpSum := acc.tpSum + (numTP iou thr ts ps : ℚ),
        tpRec := acc.tpRec + (numTP iou thr ts ps : ℚ),
        dets := acc.dets + ps.length }
    else
      { denomPP := acc.denomPP + (ps.length : ℚ),
        denomP := acc.denomP + (ts.length : ℚ),
        tpSum := acc.tpSum + (numTPP iou thr ts ps : ℚ),
        tpRec := acc.tpRec + (numTP iou thr ts ps : ℚ),
        dets := acc.dets + ps.length }
  else
    { denomPP := acc.denomPP + (ps.length : ℚ),
      denomP := acc.denomP + (ts.length : ℚ),
      tpSum := acc.tpSum,
      tpRec := acc.tpRec,
      dets := acc.dets + ps.length }

/-- One image step for class c. -/
def scoreStep (iou : Box → Box → ℚ) (thr : ℚ) (pMode : ℕ) (c : ℕ)
    (acc : ScoreAcc) (img : List CBox × List CBox) : ScoreAcc :=
  scoreStepTP iou thr pMode acc (boxesOfClass img.1 c) (boxesOfClass img.2 c)

/-- The accumulators of class c after the whole dataset sweep. -/
def scoreAcc (iou : Box → Box → ℚ) (thr : ℚ) (pMode : ℕ) (c : ℕ)
    (imgs : List (List CBox × List CBox)) : ScoreAcc :=
  imgs.foldl (scoreStep iou thr pMode c) ⟨0, 0, 0, 0, 0⟩

/-- One class's row of the score table.  The F1-score column is the
pointwise function 2*P*R/(P+R) of the two entries below and carries no
further accounting. -/
structure ScoreRow where
  precision : NpFloat
  recallVal : NpFloat
  gts : ℚ
  dets : ℕ
deriving DecidableEq, Repr

/-- np.true_divide(TP_array, denom_array) for class c, plus the gts
and dets columns. -/
def scoreRow (iou : Box → Box → ℚ) (thr : ℚ) (pMode : ℕ) (c : ℕ)
    (imgs : List (List CBox × List CBox)) : ScoreRow :=
  { precision := npDiv (scoreAcc iou thr pMode c imgs).tpSum
      (scoreAcc iou thr pMode c imgs).denomPP,
    recallVal := npDiv (scoreAcc iou thr pMode c imgs).tpRec
      (scoreAcc iou thr pMode c imgs).denomP,
    gts := (scoreAcc iou thr pMode c imgs).denomP,
    dets := (scoreAcc iou thr pMode c imgs).dets }

theorem scoreStepTP_rel (iou : Box → Box → ℚ) (thr : ℚ)
    (a1 a0 : ScoreAcc) (ts ps : List Box)
    (h1 : a1.denomP = a0.denomP) (h2 : a1.tpRec = a0.tpRec)
    (h3 : a1.denomPP = a0.denomPP - a0.tpSum + a1.tpSum)
    (h4 : a0.tpSum ≤ a0.denomPP) (h5 : 0 ≤ a1.tpSum) :
    (scoreStepTP iou thr 1 a1 ts ps).denomP =
      (scoreStepTP iou thr 0 a0 ts ps).denomP ∧
    (scoreStepTP iou thr 1 a1 ts ps).tpRec =
      (scoreStepTP iou thr 0 a0 ts ps).tpRec ∧
    (scoreStepTP iou thr 1 a1 ts ps).denomPP =
      (scoreStepTP iou thr 0 a0 ts ps).denomPP -
        (scoreStepTP iou thr 0 a0 ts ps).tpSum +
        (scoreStepTP iou thr 1 a1 ts ps).tpSum ∧
    (scoreStepTP iou thr 0 a0 ts ps).tpSum ≤
      (scoreStepTP iou thr 0 a0 ts ps).denomPP ∧
    0 ≤ (scoreStepTP iou thr 1 a1 ts ps).tpSum := by
  have hTPPq : ((numTPP iou thr ts ps : ℕ) : ℚ) ≤ ((ps.length : ℕ) : ℚ) :=
    Nat.cast_le.mpr (List.length_filter_le _ _)
  have hTPq : (0 : ℚ) ≤ (numTP iou thr ts ps : ℚ) := Nat.cast_nonneg _
  have hps : (0 : ℚ) ≤ (ps.length : ℚ) := Nat.cast_nonneg _
  unfold scoreStepTP
  by_cases hg : 0 < ts.length ∧ 0 < ps.length
  · rw [if_pos hg, if_pos hg, if_pos (by norm_num : (1 : ℕ) = 1),
      if_neg (by norm_num : ¬(0 : ℕ) = 1)]
    refine ⟨?_, ?_, ?_, ?_, ?_⟩ <;> dsimp only <;> linarith
  · rw [if_neg hg, if_neg hg]
    refine ⟨?_, ?_, ?_, ?_, ?_⟩ <;> dsimp only <;> linarith

theorem scoreAcc_go (iou : Box → Box → ℚ) (thr : ℚ) (c : ℕ)
    (imgs : List (List CBox × List CBox)) (a1 a0 : ScoreAcc)
    (h1 : a1.denomP = a0.denomP) (h2 : a1.tpRec = a0.tpRec)
    (h3 : a1.denomPP = a0.denomPP - a0.tpSum + a1.tpSum)
    (h4 : a0.tpSum ≤ a0.denomPP) (h5 : 0 ≤ a1.tpSum) :
    (imgs.foldl (scoreStep iou thr 1 c) a1).denomP =
      (imgs.foldl (scoreStep iou thr 0 c) a0).denomP ∧
    (imgs.foldl (scoreStep iou thr 1 c) a1).tpRec =
      (imgs.foldl (scoreStep iou thr 0 c) a0).tpRec ∧
    (imgs.foldl (scoreStep iou thr 1 c) a1).denomPP =
      (imgs.foldl (scoreStep iou thr 0 c) a0).denomPP -
        (imgs.foldl (scoreStep iou thr 0 c) a0).tpSum +
        (imgs.foldl (scoreStep iou thr 1 c) a1).tpSum ∧
    (imgs.foldl (scoreStep iou thr 0 c) a0).tpSum ≤
      (imgs.foldl (scoreStep iou thr 0 c) a0).denomPP ∧
    0 ≤ (imgs.foldl (scoreStep iou thr 1 c) a1).tpSum := by
  induction imgs generalizing a1 a0 with
  | nil => exact ⟨h1, h2, h3, h4, h5⟩
  | cons img rest ih =>
    simp only [List.foldl_cons]
    obtain ⟨g1, g2, g3, g4, g5⟩ := scoreStepTP_rel iou thr a1 a0
      (boxesOfClass img.1 c) (boxesOfClass img.2 c) h1 h2 h3 h4 h5
    exact ih _ _ g1 g2 g3 g4 g5

/-- C2 amended: the mode-1 precision is at most the mode-0 precision
whenever the accumulated mode-1 true-positive count does not exceed
the accumulated mode-0 count (sum of num_TP at most sum of num_TPP)
and both precision denominators are positive.  (Without the first
hypothesis a single prediction can match two ground truths at the
threshold, making num_TP exceed num_TPP and the inequality fail.) -/
theorem precision_mode1_le_mode0_amended (iou : Box → Box → ℚ)
    (thr : ℚ) (c : ℕ) (imgs : List (List CBox × List CBox))
    (hT : (scoreAcc iou thr 1 c imgs).tpSum ≤
      (scoreAcc iou thr 0 c imgs).tpSum)
    (hB0 : 0 < (scoreAcc iou thr 0 c imgs).denomPP)
    (hB1 : 0 < (scoreAcc iou thr 1 c imgs).denomPP) :
    ((scoreRow iou thr 1 c imgs).precision).leB
      ((scoreRow iou thr 0 c imgs).precision) = true := by
  unfold scoreRow
  unfold scoreAcc at hT hB0 hB1 ⊢
  obtain ⟨g1, g2, g3, g4, g5⟩ := scoreAcc_go iou thr c imgs
    ⟨0, 0, 0, 0, 0⟩ ⟨0, 0, 0, 0, 0⟩ rfl rfl (by norm_num) (le_refl 0)
    (le_refl 0)
  dsimp only
  rw [npDiv, npDiv, if_neg (ne_of_gt hB1), if_neg (ne_of_gt hB0)]
  simp only [NpFloat.leB, decide_eq_true_eq]
  rw [div_le_div_iff₀ hB1 hB0, g3]
  nlinarith [mul_nonneg (sub_nonneg.mpr hT) (sub_nonneg.mpr g4)]

/-- C2 counterexample: one image with two side-by-side unit
ground-truth boxes and a double-width prediction that covers both at
IoU exactly 1/2 (plus one far-away prediction).  num_TP = 2 exceeds
num_TPP = 1, the mode-1 denominator grows to 3, and the mode-1
precision 2/3 exceeds the mode-0 precision 1/2. -/
theorem precision_mode_le_counterexample :
    (scoreRow cal_iou (1/2) 1 0
        [([⟨⟨1/2, 1/2, 1, 1, 1⟩, [1]⟩, ⟨⟨3/2, 1/2, 1, 1, 1⟩, [1]⟩],
          [⟨⟨1, 1/2, 2, 1, 9/10⟩, [1]⟩,
           ⟨⟨10, 10, 1, 1, 8/10⟩, [1]⟩])]).precision =
      NpFloat.num (2/3) ∧
    (scoreRow cal_iou (1/2) 0 0
        [([⟨⟨1/2, 1/2, 1, 1, 1⟩, [1]⟩, ⟨⟨3/2, 1/2, 1, 1, 1⟩, [1]⟩],
          [⟨⟨1, 1/2, 2, 1, 9/10⟩, [1]⟩,
           ⟨⟨10, 10, 1, 1, 8/10⟩, [1]⟩])]).precision =
      NpFloat.num (1/2) ∧
    ((scoreRow cal_iou (1/2) 1 0
        [([⟨⟨1/2, 1/2, 1, 1, 1⟩, [1]⟩, ⟨⟨3/2, 1/2, 1, 1, 1⟩, [1]⟩],
          [⟨⟨1, 1/2, 2, 1, 9/10⟩, [1]⟩,
           ⟨⟨10, 10, 1, 1, 8/10⟩, [1]⟩])]).precision).leB
      ((scoreRow cal_iou (1/2) 0 0
        [([⟨⟨1/2, 1/2, 1, 1, 1⟩, [1]⟩, ⟨⟨3/2, 1/2, 1, 1, 1⟩, [1]⟩],
          [⟨⟨1, 1/2, 2, 1, 9/10⟩, [1]⟩,
           ⟨⟨10, 10, 1, 1, 8/10⟩, [1]⟩])]).precision) = false := by
  norm_num [scoreRow, scoreAcc, scoreStep, scoreStepTP, boxesOfClass,
    classOf, argmaxIdx, numTPP, numTP, maxVal, cal_iou, npDiv,
    NpFloat.leB, min_def, max_def]

theorem scoreStepTP_no_preds (iou : Box → Box → ℚ) (thr : ℚ)
    (pMode : ℕ) (acc : ScoreAcc) (ts : List Box) :
    scoreStepTP iou thr pMode acc ts [] =
      { denomPP := acc.denomPP, denomP := acc.denomP + (ts.length : ℚ),
        tpSum := acc.tpSum, tpRec := acc.tpRec, dets := acc.dets } := by
  unfold scoreStepTP
  rw [if_neg (by simp)]
  simp

theorem scoreAcc_no_preds_go (iou : Box → Box → ℚ) (thr : ℚ)
    (pMode : ℕ) (c : ℕ) (imgs : List (List CBox × List CBox))
    (a : ScoreAcc)
    (hnopred : ∀ img ∈ imgs, boxesOfClass img.2 c = []) :
    imgs.foldl (scoreStep iou thr pMode c) a =
      { denomPP := a.denomPP,
        denomP := a.denomP +
          (imgs.map (fun img => ((boxesOfClass img.1 c).length : ℚ))).sum,
        tpSum := a.tpSum, tpRec := a.tpRec, dets := a.dets } := by
  induction imgs generalizing a with
  | nil => simp
  | cons img rest ih =>
    rw [List.foldl_cons]
    have hstep : scoreStep iou thr pMode c a img =
        { denomPP := a.denomPP,
          denomP := a.denomP + ((boxesOfClass img.1 c).length : ℚ),
          tpSum := a.tpSum, tpRec := a.tpRec, dets := a.dets } := by
      unfold scoreStep
      rw [hnopred img (by simp), scoreStepTP_no_preds]
    rw [hstep, ih _ (fun i hi => hnopred i (List.mem_cons_of_mem _ hi))]
    simp only [List.map_cons, List.sum_cons, ScoreAcc.mk.injEq]
    refine ⟨trivial, by ring, trivial, trivial, trivial⟩

/-- C10: for a dataset in which class c never receives a predicted box
and accumulates exactly one ground-truth box in total, the class's
score row is precision NaN (the 0/0 division propagated as a value,
not an error), recall 0.0, gts 1 and dets 0. -/
theorem zero_pred_one_gt_row (iou : Box → Box → ℚ) (thr : ℚ)
    (pMode : ℕ) (c : ℕ) (imgs : List (List CBox × List CBox))
    (hnopred : ∀ img ∈ imgs, boxesOfClass img.2 c = [])
    (hone : (imgs.map
      (fun img => ((boxesOfClass img.1 c).length : ℚ))).sum = 1) :
    scoreRow iou thr pMode c imgs =
      { precision := NpFloat.nan, recallVal := NpFloat.num 0,
        gts := 1, dets := 0 } := by
  unfold scoreRow scoreAcc
  rw [scoreAcc_no_preds_go iou thr pMode c imgs _ hnopred]
  dsimp only
  rw [hone]
  norm_num [npDiv]

/-- Witness for the amended C2 statement at a concrete dataset: one
image, one ground truth and one identical prediction. -/
theorem precision_mode1_le_mode0_amended_witness :
    ((scoreRow cal_iou (1/2) 1 0
        [([⟨⟨0, 0, 2, 2, 1⟩, [1]⟩],
          [⟨⟨0, 0, 2, 2, 9/10⟩, [1]⟩])]).precision).leB
      ((scoreRow cal_iou (1/2) 0 0
        [([⟨⟨0, 0, 2, 2, 1⟩, [1]⟩],
          [⟨⟨0, 0, 2, 2, 9/10⟩, [1]⟩])]).precision) = true :=
  precision_mode1_le_mode0_amended cal_iou (1/2) 0 _
    (by norm_num [scoreAcc, scoreStep, scoreStepTP, boxesOfClass,
      classOf, argmaxIdx, numTPP, numTP, maxVal, cal_iou, min_def,
      max_def])
    (by norm_num [scoreAcc, scoreStep, scoreStepTP, boxesOfClass,
      classOf, argmaxIdx, numTPP, numTP, maxVal, cal_iou, min_def,
      max_def])
    (by norm_num [scoreAcc, scoreStep, scoreStepTP, boxesOfClass,
      classOf, argmaxIdx, numTPP, numTP, maxVal, cal_iou, min_def,
      max_def])

/-- Witness for C3 at a concrete two-detection class. -/
theorem pr_recall_monotone_sentinel_witness :
    ∃ ps rs,
      classCurve [{conf := 9/10, gtId := 0, iouPass := true},
                  {conf := 3/10, gtId := 1, iouPass := false}] 2 none =
        some (ps, rs) ∧
      rs.Chain' (fun a b => a ≤ b) ∧
      ps.getLast? = some 0 ∧
      rs.getLast? =
        (recList (sortDesc [{conf := 9/10, gtId := 0, iouPass := true},
          {conf := 3/10, gtId := 1, iouPass := false}]) 2).getLast? :=
  pr_recall_monotone_sentinel _ 2 none (by simp) (by norm_num)

/-- Witness for C4 at the curve of a concrete one-detection class. -/
theorem pr_call_is_envelope_witness :
    prCall [1, 0] [1, 1] (1/2) = specEnvelope (1/2) [1, 0] [1, 1] :=
  pr_call_is_envelope [{conf := 9/10, gtId := 0, iouPass := true}] 1
    none [1, 0] [1, 1] (1/2) (by norm_num)
    (by norm_num [classCurve, lastTP, sortDesc, insertAsc, precList,
      recList, precAt, recAt, tpCount, List.range_succ])

/-- Witness for the amended C6 statement at a concrete out-of-range
index. -/
theorem call_index_check_amended_witness :
    (callChecked 1 [([0], [0])] 0 5 = none ↔
      ((1 : ℕ) : ℤ) ≤ 5 ∨ (5 : ℤ) < -((1 : ℕ) : ℤ)) :=
  call_index_check_amended 1 [([0], [0])] 0 5 rfl

/-- Witness for C7 on a concrete two-image dataset. -/
theorem gt_ids_disjoint_witness :
    ((prAccum cal_iou (1/2) (some 100)
        [([⟨0, 0, 2, 2, 1⟩], [⟨0, 0, 2, 2, 9/10⟩]),
         ([⟨0, 0, 2, 2, 1⟩], [⟨0, 0, 2, 2, 8/10⟩])]).2 =
      ((List.range
        ([([⟨0, 0, 2, 2, 1⟩], [⟨0, 0, 2, 2, 9/10⟩]),
          ([⟨0, 0, 2, 2, 1⟩], [⟨0, 0, 2, 2, 8/10⟩])] :
            List (List Box × List Box)).length).map
        (imgContribution cal_iou (1/2) (some 100)
          [([⟨0, 0, 2, 2, 1⟩], [⟨0, 0, 2, 2, 9/10⟩]),
           ([⟨0, 0, 2, 2, 1⟩], [⟨0, 0, 2, 2, 8/10⟩])])).flatten) ∧
    ∀ d₁ ∈ imgContribution cal_iou (1/2) (some 100)
        [([⟨0, 0, 2, 2, 1⟩], [⟨0, 0, 2, 2, 9/10⟩]),
         ([⟨0, 0, 2, 2, 1⟩], [⟨0, 0, 2, 2, 8/10⟩])] 0,
      ∀ d₂ ∈ imgContribution cal_iou (1/2) (some 100)
        [([⟨0, 0, 2, 2, 1⟩], [⟨0, 0, 2, 2, 9/10⟩]),
         ([⟨0, 0, 2, 2, 1⟩], [⟨0, 0, 2, 2, 8/10⟩])] 1,
        d₁.gtId ≠ d₂.gtId :=
  gt_ids_disjoint_across_images cal_iou (1/2) (some 100) _ 0 1
    (by norm_num) (by simp)

/-- Witness for C9 on a concrete precision list. -/
theorem smooth_suffix_max_antitone_witness :
    (((smooth [1/2, 1, 0]).getD 0 0 ∈ ([1/2, 1, 0] : List ℚ).drop 0 ∧
      ∀ x ∈ ([1/2, 1, 0] : List ℚ).drop 0,
        x ≤ (smooth [1/2, 1, 0]).getD 0 0) ∧
    (smooth [1/2, 1, 0]).getD 2 0 ≤ (smooth [1/2, 1, 0]).getD 0 0) :=
  smooth_suffix_max_antitone [1/2, 1, 0] (by norm_num) 0 2
    (by norm_num) (by simp)

/-- Witness for C10 on a concrete one-image dataset. -/
theorem zero_pred_one_gt_row_witness :
    scoreRow cal_iou (1/2) 1 0 [([⟨⟨0, 0, 1, 1, 1⟩, [1]⟩], [])] =
      { precision := NpFloat.nan, recallVal := NpFloat.num 0,
        gts := 1, dets := 0 } :=
  zero_pred_one_gt_row cal_iou (1/2) 1 0 _
    (by
      intro i hi
      rw [List.mem_singleton] at hi
      subst hi
      rfl)
    (by norm_num [boxesOfClass, classOf, argmaxIdx])

end TF2YOLO
